import Mathlib

/-!
Verification development for the freemacs-rs core.

Shallow embedding of the gap buffer (`src/gap_buffer.rs`), the Emacs buffer
layer (`src/emacs_buffer.rs`), the buffers registry search
(`src/emacs_buffers.rs`), the argument kinds (`src/mint_arg.rs`), the
parameter-marker machinery (`src/frmprim.rs`, `src/mint.rs`) and the
integer codec / arithmetic primitives (`src/mint_string.rs`,
`src/mthprim.rs`).

Bytes (`MintChar`), counts (`MintCount`) and byte strings (`MintString`)
are modelled as `Nat` / `List Nat`; Rust's `i32` values are modelled as
`Int` (theorems that depend on i32 behaviour restrict their inputs so
that no overflow can occur in the Rust code).
-/

namespace Freemacs

abbrev MintChar := Nat
abbrev MintCount := Nat
abbrev MintString := List Nat

/-! ## Gap buffer (src/gap_buffer.rs) -/

def BLOCK_SIZE : Nat := 65536

structure GapBuffer where
  bottop : Nat
  topbot : Nat
  buffer : List Nat
deriving DecidableEq

namespace GapBuffer

/-- `GapBuffer::new(size)`: empty gap buffer whose gap spans the whole
allocation. -/
def new (size : Nat) : GapBuffer :=
  { bottop := 0, topbot := size, buffer := List.replicate size 0 }

/-- `GapBuffer::with_default_size()`. -/
def with_default_size : GapBuffer := new BLOCK_SIZE

/-- `GapBuffer::free`: size of the gap. -/
def free (gb : GapBuffer) : Nat := gb.topbot - gb.bottop

/-- `GapBuffer::allocated`. -/
def allocated (gb : GapBuffer) : Nat := gb.buffer.length

/-- `Buffer::size` for `GapBuffer`: `allocated - free`. -/
def size (gb : GapBuffer) : Nat := gb.allocated - gb.free

/-- `Vec::resize(size, fill)`: truncate or extend with `fill`. -/
def resizeList (l : List Nat) (n : Nat) (fill : Nat) : List Nat :=
  if n ≤ l.length then l.take n else l ++ List.replicate (n - l.length) fill

/-- `slice::copy_within(src_start..src_end, dest_start)` (memmove
semantics, in-bounds in every use below). -/
def copyWithin (l : List Nat) (srcStart srcEnd destStart : Nat) : List Nat :=
  l.take destStart ++ (l.drop srcStart).take (srcEnd - srcStart) ++
    l.drop (destStart + (srcEnd - srcStart))

/-- `GapBuffer::move_gap_to(offset)`: move the gap so that `bottop = offset`;
fails iff `offset > size`. -/
def move_gap_to (gb : GapBuffer) (offset : Nat) : Bool × GapBuffer :=
  if offset = gb.bottop then (true, gb)
  else if offset > gb.size then (false, gb)
  else if offset < gb.bottop then
    let m := gb.bottop - offset
    (true, { bottop := gb.bottop - m, topbot := gb.topbot - m,
             buffer := copyWithin gb.buffer offset (offset + m) (gb.topbot - m) })
  else
    let m := offset - gb.bottop
    (true, { bottop := gb.bottop + m, topbot := gb.topbot + m,
             buffer := copyWithin gb.buffer gb.topbot (gb.topbot + m) gb.bottop })

/-- `GapBuffer::expand(extra_space)`: grow the allocation in 64 KiB blocks,
first moving the gap to the end. -/
def expand (gb : GapBuffer) (extra_space : Nat) : GapBuffer :=
  if extra_space > 0 then
    let additional_blocks := (extra_space + BLOCK_SIZE) / BLOCK_SIZE
    let new_size := gb.allocated + additional_blocks * BLOCK_SIZE
    if new_size > gb.allocated then
      let gb1 := (gb.move_gap_to gb.size).2
      { bottop := gb1.bottop, topbot := new_size,
        buffer := resizeList gb1.buffer new_size 0 }
    else gb
  else gb

/-- `Buffer::get` for `GapBuffer`: byte at external offset `offset`, skipping
the gap. -/
def get (gb : GapBuffer) (offset : Nat) : Option Nat :=
  if offset ≥ gb.size then none
  else
    let actual := if offset ≥ gb.bottop then offset + gb.free else offset
    some (gb.buffer.getD actual 0)

/-- Write `s` over `l[i..i+s.length]` (`copy_from_slice`; in-bounds in every
use below). -/
def setRange (l : List Nat) (i : Nat) (s : List Nat) : List Nat :=
  l.take i ++ s ++ l.drop (i + s.length)

/-- `Buffer::erase` for `GapBuffer`. -/
def erase (gb : GapBuffer) (offset n : Nat) : Bool × GapBuffer :=
  if gb.size ≥ offset ∧ gb.size - offset ≥ n then
    match gb.move_gap_to (offset + n) with
    | (true, gb1) => (true, { gb1 with bottop := gb1.bottop - n })
    | (false, gb1) => (false, gb1)
  else (false, gb)

/-- `Buffer::insert` for `GapBuffer`. -/
def insert (gb : GapBuffer) (offset : Nat) (to_insert : List Nat) :
    Bool × GapBuffer :=
  let insert_size := to_insert.length
  let gb1 := if gb.free < insert_size then gb.expand (insert_size - gb.free)
             else gb
  if gb1.free ≥ insert_size then
    match gb1.move_gap_to offset with
    | (true, gb2) =>
        (true, { gb2 with buffer := setRange gb2.buffer gb2.bottop to_insert,
                          bottop := gb2.bottop + insert_size })
    | (false, gb2) => (false, gb2)
  else (false, gb1)

/-- `Buffer::replace` for `GapBuffer`: `erase` then (if it succeeded)
`insert`. -/
def replace (gb : GapBuffer) (offset n : Nat) (replacement : List Nat) :
    Bool × GapBuffer :=
  match gb.erase offset n with
  | (true, gb1) => gb1.insert offset replacement
  | (false, gb1) => (false, gb1)

/-- Observable content of a gap buffer: the user data on both sides of the
gap. -/
def contents (gb : GapBuffer) : List Nat :=
  gb.buffer.take gb.bottop ++ gb.buffer.drop gb.topbot

/-- Structural invariant of a gap buffer. -/
def Wf (gb : GapBuffer) : Prop :=
  gb.bottop ≤ gb.topbot ∧ gb.topbot ≤ gb.buffer.length

instance (gb : GapBuffer) : Decidable gb.Wf := by
  unfold Wf; infer_instance

end GapBuffer

/-! ## Naive contiguous model (spec §8, property 1)

Modelled from the spec: the "naive contiguous-model" mirror string that the
gap-buffer round-trip property compares against.  An operation passes the
bounds check iff the addressed range lies inside the string. -/

def naiveInsert (l : List Nat) (off : Nat) (s : List Nat) : Bool × List Nat :=
  if off ≤ l.length then (true, l.take off ++ s ++ l.drop off) else (false, l)

def naiveErase (l : List Nat) (off n : Nat) : Bool × List Nat :=
  if off + n ≤ l.length then (true, l.take off ++ l.drop (off + n))
  else (false, l)

def naiveReplace (l : List Nat) (off n : Nat) (s : List Nat) :
    Bool × List Nat :=
  match naiveErase l off n with
  | (true, l1) => naiveInsert l1 off s
  | (false, l1) => (false, l1)

/-- One buffer operation of the round-trip property. -/
inductive BufOp where
  | ins (off : Nat) (s : List Nat)
  | del (off n : Nat)
  | rep (off n : Nat) (s : List Nat)

/-- Apply one operation to a gap buffer. -/
def applyOp (gb : GapBuffer) : BufOp → Bool × GapBuffer
  | .ins off s => gb.insert off s
  | .del off n => gb.erase off n
  | .rep off n s => gb.replace off n s

/-- Apply one operation to the naive model. -/
def applyNaive (l : List Nat) : BufOp → Bool × List Nat
  | .ins off s => naiveInsert l off s
  | .del off n => naiveErase l off n
  | .rep off n s => naiveReplace l off n s

/-- Run a sequence of operations on a gap buffer, collecting the returned
booleans. -/
def runGap : List BufOp → GapBuffer → GapBuffer × List Bool
  | [], gb => (gb, [])
  | op :: ops, gb =>
      let r := applyOp gb op
      let rest := runGap ops r.2
      (rest.1, r.1 :: rest.2)

/-- Run a sequence of operations on the naive model. -/
def runNaive : List BufOp → List Nat → List Nat × List Bool
  | [], l => (l, [])
  | op :: ops, l =>
      let r := applyNaive l op
      let rest := runNaive ops r.2
      (rest.1, r.1 :: rest.2)

/-! ### Gap-buffer refinement lemmas -/

namespace GapBuffer

theorem size_eq (gb : GapBuffer) (h : gb.Wf) :
    gb.size = gb.bottop + (gb.buffer.length - gb.topbot) := by
  obtain ⟨h1, h2⟩ := h
  unfold size allocated free
  omega

theorem contents_length (gb : GapBuffer) (h : gb.Wf) :
    gb.contents.length = gb.size := by
  obtain ⟨h1, h2⟩ := h
  unfold contents size allocated free
  simp only [List.length_append, List.length_take, List.length_drop]
  omega

theorem get_eq (gb : GapBuffer) (h : gb.Wf) (off : Nat) :
    gb.get off = gb.contents[off]? := by
  obtain ⟨h1, h2⟩ := h
  unfold get contents
  by_cases hoff : off ≥ gb.size
  · rw [if_pos hoff]
    symm
    apply List.getElem?_eq_none
    unfold size allocated free at hoff
    simp only [List.length_append, List.length_take, List.length_drop]
    omega
  · rw [if_neg hoff]
    push_neg at hoff
    unfold size allocated free at hoff
    have hlt : (List.take gb.bottop gb.buffer).length = gb.bottop := by
      simp only [List.length_take]
      omega
    by_cases hb : off ≥ gb.bottop
    · simp only [if_pos hb]
      rw [List.getElem?_append_right (by rw [hlt]; exact hb)]
      rw [hlt, List.getElem?_drop]
      have hfr : gb.topbot + (off - gb.bottop) = off + gb.free := by
        unfold free
        omega
      rw [hfr]
      have hin : off + gb.free < gb.buffer.length := by
        unfold free
        omega
      rw [List.getElem?_eq_getElem hin]
      rw [List.getD_eq_getElem gb.buffer 0 hin]
    · push_neg at hb
      rw [if_neg (by omega : ¬ off ≥ gb.bottop)]
      rw [List.getElem?_append, if_pos (by rw [hlt]; exact hb)]
      rw [List.getElem?_take_of_lt hb]
      have hin : off < gb.buffer.length := by omega
      rw [List.getElem?_eq_getElem hin]
      show some (gb.buffer.getD off 0) = some gb.buffer[off]
      rw [List.getD_eq_getElem gb.buffer 0 hin]


theorem copyWithin_length (L : List Nat) (s e d : Nat) (h1 : s ≤ e)
    (h2 : e ≤ L.length) (h3 : d + (e - s) ≤ L.length) :
    (copyWithin L s e d).length = L.length := by
  unfold copyWithin
  simp only [List.length_append, List.length_take, List.length_drop]
  omega


/-- Moving the gap to the left (`offset < bottop`) preserves the observable
contents. -/
theorem copyWithin_gap_left (L : List Nat) (off b t : Nat)
    (h1 : off ≤ b) (h2 : b ≤ t) (h3 : t ≤ L.length) :
    (copyWithin L off b (t - (b - off))).take off ++
      (copyWithin L off b (t - (b - off))).drop (t - (b - off)) =
    L.take b ++ L.drop t := by
  unfold copyWithin
  have e1 : t - (b - off) + (b - off) = t := by omega
  rw [e1]
  have hlenA : (L.take (t - (b - off))).length = t - (b - off) := by
    simp
    omega
  have hlenB : ((L.drop off).take (b - off)).length = b - off := by
    simp
    omega
  have hlenAB : (L.take (t - (b - off)) ++ (L.drop off).take (b - off)).length
      = t := by
    simp only [List.length_append, hlenA, hlenB]
    omega
  rw [List.take_append_eq_append_take]
  rw [List.take_append_eq_append_take]
  rw [List.drop_append_eq_append_drop]
  rw [List.drop_append_eq_append_drop]
  rw [hlenA, hlenAB]
  rw [show off - t = 0 by omega, List.take_zero, List.append_nil]
  rw [show off - (t - (b - off)) = 0 by omega, List.take_zero, List.append_nil]
  rw [List.take_take, show min off (t - (b - off)) = off by omega]
  rw [List.drop_of_length_le (le_of_eq hlenA), Nat.sub_self, List.drop_zero,
    List.nil_append]
  rw [show t - (b - off) - t = 0 by omega, List.drop_zero]
  have hsplit : L.take b = L.take off ++ (L.drop off).take (b - off) := by
    conv_lhs => rw [show b = off + (b - off) by omega]
    exact List.take_add ..
  rw [hsplit, List.append_assoc]

/-- Moving the gap to the right (`offset > bottop`) preserves the observable
contents. -/
theorem copyWithin_gap_right (L : List Nat) (off b t : Nat)
    (h1 : b ≤ off) (h2 : b ≤ t) (h3 : t ≤ L.length)
    (h4 : off + (t - b) ≤ L.length) :
    (copyWithin L t (t + (off - b)) b).take (b + (off - b)) ++
      (copyWithin L t (t + (off - b)) b).drop (t + (off - b)) =
    L.take b ++ L.drop t := by
  unfold copyWithin
  simp only [Nat.add_sub_cancel_left]
  have hlenA : (L.take b).length = b := by
    simp
    omega
  have hlenB : ((L.drop t).take (off - b)).length = off - b := by
    simp
    omega
  have hlenAB : (L.take b ++ (L.drop t).take (off - b)).length = b + (off - b)
      := by
    simp only [List.length_append, hlenA, hlenB]
  rw [List.take_append_eq_append_take]
  rw [List.take_append_eq_append_take]
  rw [List.drop_append_eq_append_drop]
  rw [List.drop_append_eq_append_drop]
  rw [hlenA, hlenAB]
  rw [Nat.sub_self, List.take_zero, List.append_nil]
  rw [show b + (off - b) - b = off - b by omega]
  rw [List.take_of_length_le (le_of_eq hlenB)]
  rw [List.take_take, show min (b + (off - b)) b = b by omega]
  rw [List.drop_of_length_le
    (show (L.take b).length ≤ t + (off - b) by rw [hlenA]; omega)]
  rw [List.drop_of_length_le
    (show ((L.drop t).take (off - b)).length ≤ t + (off - b) - b by
      rw [hlenB]; omega)]
  rw [List.nil_append, List.nil_append]
  rw [show t + (off - b) - (b + (off - b)) = t - b by omega]
  rw [List.drop_drop]
  rw [show b + (off - b) + (t - b) = t + (off - b) by omega]
  have hsplit : L.drop t =
      (L.drop t).take (off - b) ++ L.drop (t + (off - b)) := by
    conv_lhs => rw [← List.take_append_drop (off - b) (L.drop t)]
    rw [List.drop_drop]
  conv_rhs => rw [hsplit]
  rw [List.append_assoc]

/-- Behaviour of `move_gap_to`: it preserves well-formedness, the observable
contents, the allocation length and the gap size; it succeeds iff the target
offset is within the user data, and on success `bottop` lands on the
target. -/
theorem move_gap_to_spec (gb : GapBuffer) (off : Nat) (h : gb.Wf) :
    (gb.move_gap_to off).2.Wf ∧
    (gb.move_gap_to off).2.contents = gb.contents ∧
    (gb.move_gap_to off).2.buffer.length = gb.buffer.length ∧
    (gb.move_gap_to off).2.free = gb.free ∧
    ((gb.move_gap_to off).1 = true ↔ off ≤ gb.size) ∧
    ((gb.move_gap_to off).1 = true → (gb.move_gap_to off).2.bottop = off) := by
  obtain ⟨h1, h2⟩ := h
  have hsize : gb.size = gb.bottop + (gb.buffer.length - gb.topbot) :=
    size_eq gb ⟨h1, h2⟩
  unfold move_gap_to
  by_cases he : off = gb.bottop
  · simp only [he, if_pos rfl]
    refine ⟨⟨h1, h2⟩, rfl, rfl, rfl,
      ⟨fun _ => by omega, fun _ => rfl⟩, fun _ => rfl⟩
  · rw [if_neg he]
    by_cases hgt : off > gb.size
    · rw [if_pos hgt]
      refine ⟨⟨h1, h2⟩, rfl, rfl, rfl,
        ⟨fun hc => absurd hc (by simp), fun hle => absurd hle (by omega)⟩,
        fun hc => absurd hc (by simp)⟩
    · rw [if_neg hgt]
      push_neg at hgt
      by_cases hlt : off < gb.bottop
      · rw [if_pos hlt]
        dsimp only
        have hlen : (copyWithin gb.buffer off (off + (gb.bottop - off))
            (gb.topbot - (gb.bottop - off))).length = gb.buffer.length := by
          apply copyWithin_length <;> omega
        refine ⟨⟨by show gb.bottop - (gb.bottop - off) ≤
              gb.topbot - (gb.bottop - off); omega,
            by show gb.topbot - (gb.bottop - off) ≤ (copyWithin gb.buffer off
                (off + (gb.bottop - off)) (gb.topbot - (gb.bottop - off))).length
               rw [hlen]; omega⟩,
          ?_, hlen, ?_,
          ⟨fun _ => hgt, fun _ => rfl⟩,
          fun _ => by show gb.bottop - (gb.bottop - off) = off; omega⟩
        · unfold contents
          dsimp only
          rw [show gb.bottop - (gb.bottop - off) = off by omega]
          rw [show off + (gb.bottop - off) = gb.bottop by omega]
          exact copyWithin_gap_left gb.buffer off gb.bottop gb.topbot
            (by omega) h1 h2
        · unfold free
          dsimp only
          omega
      · rw [if_neg hlt]
        dsimp only
        have hlen : (copyWithin gb.buffer gb.topbot
            (gb.topbot + (off - gb.bottop)) gb.bottop).length =
            gb.buffer.length := by
          apply copyWithin_length <;> omega
        refine ⟨⟨by show gb.bottop + (off - gb.bottop) ≤
              gb.topbot + (off - gb.bottop); omega,
            by show gb.topbot + (off - gb.bottop) ≤ (copyWithin gb.buffer
                gb.topbot (gb.topbot + (off - gb.bottop)) gb.bottop).length
               rw [hlen]; omega⟩,
          ?_, hlen, ?_,
          ⟨fun _ => hgt, fun _ => rfl⟩,
          fun _ => by show gb.bottop + (off - gb.bottop) = off; omega⟩
        · unfold contents
          dsimp only
          exact copyWithin_gap_right gb.buffer off gb.bottop gb.topbot
            (by omega) h1 h2 (by omega)
        · unfold free
          dsimp only
          omega

theorem expand_spec (gb : GapBuffer) (extra : Nat) (h : gb.Wf) :
    (gb.expand extra).Wf ∧ (gb.expand extra).contents = gb.contents ∧
    (gb.expand extra).size = gb.size ∧
    (0 < extra → gb.free + extra ≤ (gb.expand extra).free) := by
  obtain ⟨h1, h2⟩ := h
  by_cases hpos : extra > 0
  · have hblk : extra ≤ ((extra + BLOCK_SIZE) / BLOCK_SIZE) * BLOCK_SIZE ∧
        BLOCK_SIZE ≤ ((extra + BLOCK_SIZE) / BLOCK_SIZE) * BLOCK_SIZE := by
      unfold BLOCK_SIZE
      omega
    obtain ⟨hwf1, hc1, hl1, hf1, hsucc1, hbot1⟩ :=
      move_gap_to_spec gb gb.size ⟨h1, h2⟩
    set gb1 := (gb.move_gap_to gb.size).2 with hgb1
    obtain ⟨h1a, h2a⟩ := hwf1
    have hbot : gb1.bottop = gb.size := hbot1 (by rw [hsucc1])
    have hfr1 : gb1.topbot - gb1.bottop = gb.topbot - gb.bottop := hf1
    have hsz : gb.size = gb.buffer.length - (gb.topbot - gb.bottop) := rfl
    have htb1 : gb1.topbot = gb1.buffer.length := by
      rw [hl1] at h2a ⊢
      omega
    have hresval : resizeList gb1.buffer (gb.allocated +
        (extra + BLOCK_SIZE) / BLOCK_SIZE * BLOCK_SIZE) 0 =
        gb1.buffer ++ List.replicate (gb.allocated +
          (extra + BLOCK_SIZE) / BLOCK_SIZE * BLOCK_SIZE -
          gb1.buffer.length) 0 := by
      unfold resizeList
      rw [if_neg (by show ¬ (gb.buffer.length + _ ≤ _); rw [hl1]; omega)]
    have key : gb.expand extra =
        { bottop := gb1.bottop,
          topbot := gb.allocated +
            (extra + BLOCK_SIZE) / BLOCK_SIZE * BLOCK_SIZE,
          buffer := gb1.buffer ++ List.replicate (gb.allocated +
            (extra + BLOCK_SIZE) / BLOCK_SIZE * BLOCK_SIZE -
            gb1.buffer.length) 0 } := by
      unfold expand
      rw [if_pos hpos]
      dsimp only
      rw [if_pos (by show gb.buffer.length + _ > gb.buffer.length; omega)]
      rw [← hgb1, hresval]
    have hlenapp : (gb1.buffer ++ List.replicate (gb.allocated +
        (extra + BLOCK_SIZE) / BLOCK_SIZE * BLOCK_SIZE -
        gb1.buffer.length) 0).length =
        gb.buffer.length + (extra + BLOCK_SIZE) / BLOCK_SIZE * BLOCK_SIZE := by
      simp only [List.length_append, List.length_replicate]
      show _ + (gb.buffer.length + _ - _) = _
      rw [hl1]
      omega
    have hall : gb.allocated = gb.buffer.length := rfl
    refine ⟨⟨?_, ?_⟩, ?_, ?_, ?_⟩
    · simp only [key]
      omega
    · simp only [key, hlenapp]
      omega
    · unfold contents at hc1 ⊢
      simp only [key]
      rw [List.drop_of_length_le (by rw [hlenapp]; omega)]
      rw [List.take_append_of_le_length (by omega)]
      rw [List.append_nil]
      rw [← hc1]
      rw [List.drop_of_length_le (by omega)]
      rw [List.append_nil]
    · unfold size allocated free
      simp only [key, hlenapp]
      omega
    · intro _
      unfold free
      simp only [key, hlenapp]
      omega
  · unfold expand
    rw [if_neg hpos]
    exact ⟨⟨h1, h2⟩, rfl, rfl, by omega⟩

theorem setRange_split (buf : List Nat) (off tb : Nat) (s : List Nat)
    (h1 : off + s.length ≤ tb) (h2 : tb ≤ buf.length) :
    (setRange buf off s).take (off + s.length) ++ (setRange buf off s).drop tb
      = buf.take off ++ s ++ buf.drop tb := by
  unfold setRange
  have hlenA : (buf.take off ++ s).length = off + s.length := by
    simp
    omega
  rw [List.take_append_eq_append_take]
  rw [List.drop_append_eq_append_drop]
  rw [hlenA]
  rw [List.take_of_length_le (le_of_eq hlenA), Nat.sub_self, List.take_zero,
    List.append_nil]
  rw [List.drop_of_length_le (by rw [hlenA]; omega)]
  rw [List.nil_append, List.drop_drop]
  rw [show off + s.length + (tb - (off + s.length)) = tb by omega]

/-- Core behaviour of `insert` when the gap is already big enough (after the
possible `expand` call). -/
theorem insert_core (gb : GapBuffer) (off : Nat) (s : List Nat)
    (h : gb.Wf) (hfree : s.length ≤ gb.free) :
    (gb.insert off s).2.Wf ∧
    ((gb.insert off s).1 = true ↔ off ≤ gb.size) ∧
    ((gb.insert off s).1 = true →
      (gb.insert off s).2.contents =
        gb.contents.take off ++ s ++ gb.contents.drop off) ∧
    ((gb.insert off s).1 = false →
      (gb.insert off s).2.contents = gb.contents) := by
  obtain ⟨h1, h2⟩ := h
  have hsz : gb.size = gb.buffer.length - (gb.topbot - gb.bottop) := rfl
  have hfr : gb.free = gb.topbot - gb.bottop := rfl
  obtain ⟨hwf2, hc2, hl2, hf2, hiff2, hbot2⟩ := move_gap_to_spec gb off ⟨h1, h2⟩
  unfold insert
  dsimp only
  rw [if_neg (show ¬ gb.free < s.length by omega)]
  rw [if_pos (show gb.free ≥ s.length by omega)]
  rcases hb : gb.move_gap_to off with ⟨b, gb2⟩
  rw [hb] at hwf2 hc2 hl2 hf2 hiff2 hbot2
  dsimp only at hwf2 hc2 hl2 hf2 hiff2 hbot2
  obtain ⟨h1b, h2b⟩ := hwf2
  cases b
  · dsimp only
    refine ⟨⟨h1b, h2b⟩, ?_, ?_, fun _ => hc2⟩
    · constructor
      · intro hcon
        exact absurd hcon (by simp)
      · intro hle
        exact absurd (hiff2.mpr hle) (by simp)
    · intro hcon
      exact absurd hcon (by simp)
  · dsimp only
    have hoffle : off ≤ gb.size := hiff2.mp rfl
    have hbot : gb2.bottop = off := hbot2 rfl
    have hfr2 : gb2.topbot - gb2.bottop = gb.topbot - gb.bottop := hf2
    have hlen3 : (setRange gb2.buffer gb2.bottop s).length =
        gb2.buffer.length := by
      unfold setRange
      simp only [List.length_append, List.length_take, List.length_drop]
      rw [hl2]
      omega
    refine ⟨⟨?_, ?_⟩, ⟨fun _ => hoffle, fun _ => rfl⟩, fun _ => ?_, ?_⟩
    · show gb2.bottop + s.length ≤ gb2.topbot
      omega
    · show gb2.topbot ≤ (setRange gb2.buffer gb2.bottop s).length
      rw [hlen3, hl2]
      omega
    · show (setRange gb2.buffer gb2.bottop s).take (gb2.bottop + s.length) ++
        (setRange gb2.buffer gb2.bottop s).drop gb2.topbot = _
      rw [setRange_split gb2.buffer gb2.bottop gb2.topbot s (by omega)
        (by rw [hl2]; omega)]
      rw [← hc2]
      unfold contents
      have hlentk : (gb2.buffer.take gb2.bottop).length = gb2.bottop := by
        simp
        rw [hl2]
        omega
      rw [hbot]
      rw [List.take_append_eq_append_take]
      rw [List.drop_append_eq_append_drop]
      rw [hbot] at hlentk
      rw [hlentk, Nat.sub_self, List.take_zero, List.append_nil,
        List.drop_zero]
      rw [List.take_of_length_le (le_of_eq hlentk)]
      rw [List.drop_of_length_le (le_of_eq hlentk)]
      rw [List.nil_append, List.append_assoc]
    · intro hcon
      exact absurd hcon (by simp)

/-- When the gap is too small, `insert` first expands and then behaves like
`insert` on the expanded buffer. -/
theorem insert_eq_of_expand (gb : GapBuffer) (off : Nat) (s : List Nat)
    (h : gb.Wf) (hlt : gb.free < s.length) :
    gb.insert off s = (gb.expand (s.length - gb.free)).insert off s := by
  have hfree1 : s.length ≤ (gb.expand (s.length - gb.free)).free := by
    have := (expand_spec gb (s.length - gb.free) h).2.2.2 (by omega)
    omega
  conv_lhs => unfold insert
  conv_rhs => unfold insert
  dsimp only
  rw [if_pos hlt]
  rw [if_neg (show ¬ (gb.expand (s.length - gb.free)).free < s.length
    by omega)]

theorem insert_spec (gb : GapBuffer) (off : Nat) (s : List Nat) (h : gb.Wf) :
    (gb.insert off s).2.Wf ∧
    ((gb.insert off s).1 = true ↔ off ≤ gb.size) ∧
    ((gb.insert off s).1 = true →
      (gb.insert off s).2.contents =
        gb.contents.take off ++ s ++ gb.contents.drop off) ∧
    ((gb.insert off s).1 = false →
      (gb.insert off s).2.contents = gb.contents) := by
  by_cases hlt : gb.free < s.length
  · obtain ⟨hwf1, hc1, hs1, hf1⟩ := expand_spec gb (s.length - gb.free) h
    have hfree1 : s.length ≤ (gb.expand (s.length - gb.free)).free := by
      have := hf1 (by omega)
      omega
    obtain ⟨ha, hb, hc, hd⟩ :=
      insert_core (gb.expand (s.length - gb.free)) off s hwf1 hfree1
    rw [insert_eq_of_expand gb off s h hlt]
    rw [hc1] at hc hd
    rw [hs1] at hb
    exact ⟨ha, hb, hc, hd⟩
  · exact insert_core gb off s h (by omega)

theorem erase_spec (gb : GapBuffer) (off n : Nat) (h : gb.Wf) :
    (gb.erase off n).2.Wf ∧
    ((gb.erase off n).1 = true ↔ off + n ≤ gb.size) ∧
    ((gb.erase off n).1 = true →
      (gb.erase off n).2.contents =
        gb.contents.take off ++ gb.contents.drop (off + n)) ∧
    ((gb.erase off n).1 = false →
      (gb.erase off n).2.contents = gb.contents) := by
  obtain ⟨h1, h2⟩ := h
  have hsz : gb.size = gb.buffer.length - (gb.topbot - gb.bottop) := rfl
  unfold erase
  by_cases hbnd : gb.size ≥ off ∧ gb.size - off ≥ n
  · rw [if_pos hbnd]
    obtain ⟨hwf1, hc1, hl1, hf1, hiff1, hbot1⟩ :=
      move_gap_to_spec gb (off + n) ⟨h1, h2⟩
    rcases hm : gb.move_gap_to (off + n) with ⟨b, gb1⟩
    rw [hm] at hwf1 hc1 hl1 hf1 hiff1 hbot1
    dsimp only at hwf1 hc1 hl1 hf1 hiff1 hbot1
    obtain ⟨h1a, h2a⟩ := hwf1
    cases b
    · exact absurd (hiff1.mpr (by omega)) (by simp)
    · dsimp only
      have hbot : gb1.bottop = off + n := hbot1 rfl
      have hfr1 : gb1.topbot - gb1.bottop = gb.topbot - gb.bottop := hf1
      refine ⟨⟨?_, ?_⟩, ⟨fun _ => by omega, fun _ => rfl⟩, fun _ => ?_,
        fun hcon => absurd hcon (by simp)⟩
      · show gb1.bottop - n ≤ gb1.topbot
        omega
      · exact h2a
      · show gb1.buffer.take (gb1.bottop - n) ++ gb1.buffer.drop gb1.topbot = _
        rw [← hc1]
        unfold contents
        rw [hbot, show off + n - n = off by omega]
        have hlentk : (gb1.buffer.take (off + n)).length = off + n := by
          simp
          rw [hl1]
          omega
        rw [List.take_append_eq_append_take, hlentk]
        rw [show off - (off + n) = 0 by omega, List.take_zero, List.append_nil]
        rw [List.take_take, show min off (off + n) = off by omega]
        rw [List.drop_append_eq_append_drop, hlentk]
        rw [List.drop_of_length_le (le_of_eq hlentk), Nat.sub_self,
          List.drop_zero, List.nil_append]
  · rw [if_neg hbnd]
    refine ⟨⟨h1, h2⟩, ?_, fun hcon => absurd hcon (by simp), fun _ => rfl⟩
    constructor
    · intro hcon
      exact absurd hcon (by simp)
    · intro hle
      exact absurd ⟨by omega, by omega⟩ hbnd

theorem replace_spec (gb : GapBuffer) (off n : Nat) (s : List Nat)
    (h : gb.Wf) :
    (gb.replace off n s).2.Wf ∧
    ((gb.replace off n s).1 = true ↔ off + n ≤ gb.size) ∧
    ((gb.replace off n s).1 = true →
      (gb.replace off n s).2.contents =
        gb.contents.take off ++ s ++ gb.contents.drop (off + n)) ∧
    ((gb.replace off n s).1 = false →
      (gb.replace off n s).2.contents = gb.contents) := by
  obtain ⟨hwfE, hiffE, hcE, hcE2⟩ := erase_spec gb off n h
  unfold replace
  rcases he : gb.erase off n with ⟨b, gb1⟩
  rw [he] at hwfE hiffE hcE hcE2
  dsimp only at hwfE hiffE hcE hcE2
  cases b
  · dsimp only
    have hnle : ¬ off + n ≤ gb.size := by
      intro hle
      exact absurd (hiffE.mpr hle) (by simp)
    refine ⟨hwfE, ⟨fun hcon => absurd hcon (by simp), fun hle => absurd hle hnle⟩,
      fun hcon => absurd hcon (by simp), fun _ => hcE2 rfl⟩
  · dsimp only
    have hle : off + n ≤ gb.size := hiffE.mp rfl
    have hc1 : gb1.contents = gb.contents.take off ++ gb.contents.drop (off + n)
      := hcE rfl
    have hclen : gb.contents.length = gb.size := contents_length gb h
    have hsz1 : gb1.size = gb.size - n := by
      rw [← contents_length gb1 hwfE, hc1]
      simp only [List.length_append, List.length_take, List.length_drop]
      omega
    obtain ⟨hwfI, hiffI, hcI, hcI2⟩ := insert_spec gb1 off s hwfE
    have hoffle : off ≤ gb1.size := by omega
    have htk : gb1.contents.take off = gb.contents.take off := by
      rw [hc1]
      rw [List.take_append_eq_append_take]
      rw [List.length_take, show min off gb.contents.length = off by omega]
      rw [Nat.sub_self, List.take_zero, List.append_nil]
      rw [List.take_take, Nat.min_self]
    have hdp : gb1.contents.drop off = gb.contents.drop (off + n) := by
      rw [hc1]
      rw [List.drop_append_eq_append_drop]
      rw [List.length_take, show min off gb.contents.length = off by omega]
      rw [List.drop_of_length_le (by rw [List.length_take]; omega),
        Nat.sub_self, List.drop_zero, List.nil_append]
    refine ⟨hwfI, ⟨fun _ => hle, fun _ => hiffI.mpr hoffle⟩, fun _ => ?_,
      fun hcon => ?_⟩
    · rw [hcI (hiffI.mpr hoffle), htk, hdp]
    · rw [hiffI.mpr hoffle] at hcon
      exact absurd hcon (by simp)

end GapBuffer

theorem naiveReplace_eq (l : List Nat) (off n : Nat) (s : List Nat) :
    naiveReplace l off n s =
      if off + n ≤ l.length then
        (true, l.take off ++ s ++ l.drop (off + n))
      else (false, l) := by
  unfold naiveReplace naiveErase naiveInsert
  by_cases hb : off + n ≤ l.length
  · rw [if_pos hb]
    dsimp only
    rw [if_pos (show off ≤ (l.take off ++ l.drop (off + n)).length by
      simp
      omega)]
    have htk : (l.take off ++ l.drop (off + n)).take off = l.take off := by
      rw [List.take_append_eq_append_take]
      rw [List.length_take, show min off l.length = off by omega]
      rw [Nat.sub_self, List.take_zero, List.append_nil]
      rw [List.take_take, Nat.min_self]
    have hdp : (l.take off ++ l.drop (off + n)).drop off = l.drop (off + n)
        := by
      rw [List.drop_append_eq_append_drop]
      rw [List.length_take, show min off l.length = off by omega]
      rw [List.drop_of_length_le (by rw [List.length_take]; omega),
        Nat.sub_self, List.drop_zero, List.nil_append]
    rw [htk, hdp]
    rw [if_pos hb]
  · rw [if_neg hb]
    dsimp only
    rw [if_neg hb]

/-- One step of the gap-buffer / naive-model simulation: each operation
returns the same boolean on both sides and re-establishes the coupling
between the gap buffer contents and the naive mirror string. -/
theorem applyOp_refines (gb : GapBuffer) (l : List Nat) (op : BufOp)
    (h : gb.Wf) (hc : gb.contents = l) :
    (applyOp gb op).1 = (applyNaive l op).1 ∧
    (applyOp gb op).2.Wf ∧
    (applyOp gb op).2.contents = (applyNaive l op).2 := by
  have hlen : l.length = gb.size := by
    rw [← hc]
    exact GapBuffer.contents_length gb h
  cases op with
  | ins off s =>
    obtain ⟨hwf, hiff, hct, hcf⟩ := GapBuffer.insert_spec gb off s h
    unfold applyOp applyNaive naiveInsert
    dsimp only
    by_cases hb : off ≤ l.length
    · rw [if_pos hb]
      have htrue : (gb.insert off s).1 = true := hiff.mpr (by omega)
      refine ⟨by rw [htrue], hwf, ?_⟩
      rw [hct htrue, hc]
    · rw [if_neg hb]
      have hfalse : (gb.insert off s).1 = false := by
        cases hb2 : (gb.insert off s).1
        · rfl
        · exact absurd (hiff.mp hb2) (by omega)
      refine ⟨by rw [hfalse], hwf, ?_⟩
      rw [hcf hfalse, hc]
  | del off n =>
    obtain ⟨hwf, hiff, hct, hcf⟩ := GapBuffer.erase_spec gb off n h
    unfold applyOp applyNaive naiveErase
    dsimp only
    by_cases hb : off + n ≤ l.length
    · rw [if_pos hb]
      have htrue : (gb.erase off n).1 = true := hiff.mpr (by omega)
      refine ⟨by rw [htrue], hwf, ?_⟩
      rw [hct htrue, hc]
    · rw [if_neg hb]
      have hfalse : (gb.erase off n).1 = false := by
        cases hb2 : (gb.erase off n).1
        · rfl
        · exact absurd (hiff.mp hb2) (by omega)
      refine ⟨by rw [hfalse], hwf, ?_⟩
      rw [hcf hfalse, hc]
  | rep off n s =>
    obtain ⟨hwf, hiff, hct, hcf⟩ := GapBuffer.replace_spec gb off n s h
    unfold applyOp
    dsimp only
    rw [show applyNaive l (BufOp.rep off n s) = naiveReplace l off n s
      from rfl]
    rw [naiveReplace_eq]
    by_cases hb : off + n ≤ l.length
    · rw [if_pos hb]
      have htrue : (gb.replace off n s).1 = true := hiff.mpr (by omega)
      refine ⟨by rw [htrue], hwf, ?_⟩
      rw [hct htrue, hc]
    · rw [if_neg hb]
      have hfalse : (gb.replace off n s).1 = false := by
        cases hb2 : (gb.replace off n s).1
        · rfl
        · exact absurd (hiff.mp hb2) (by omega)
      refine ⟨by rw [hfalse], hwf, ?_⟩
      rw [hcf hfalse, hc]

/-- Whole-run simulation: the gap buffer stays well formed, its contents
track the naive model, and the operation results agree pointwise. -/
theorem runOps_refines (ops : List BufOp) (gb : GapBuffer) (l : List Nat)
    (h : gb.Wf) (hc : gb.contents = l) :
    (runGap ops gb).1.Wf ∧
    (runGap ops gb).1.contents = (runNaive ops l).1 ∧
    (runGap ops gb).2 = (runNaive ops l).2 := by
  induction ops generalizing gb l with
  | nil => exact ⟨h, hc, rfl⟩
  | cons op ops ih =>
    obtain ⟨hb, hwf, hcc⟩ := applyOp_refines gb l op h hc
    obtain ⟨ihw, ihc, ihb⟩ := ih (applyOp gb op).2 (applyNaive l op).2 hwf hcc
    unfold runGap runNaive
    dsimp only
    exact ⟨ihw, ihc, by rw [hb, ihb]⟩

theorem range_map_getElem? (l : List Nat) :
    (List.range l.length).map (fun i => l[i]?) = l.map some := by
  induction l with
  | nil => simp
  | cons a t ih =>
    rw [List.length_cons, List.range_succ_eq_map]
    simp only [List.map_cons, List.getElem?_cons_zero, List.map_map]
    have hcmp : ((fun i => (a :: t)[i]?) ∘ Nat.succ) = fun i => t[i]? := by
      funext i
      simp
    rw [hcmp, ih]

/-- C1: for every sequence of insert / erase / replace operations on a
`GapBuffer` (started at any allocation size), reading `size` bytes with
`get` yields exactly the naive contiguous mirror string obtained by the
same operations, and each operation returns `true` exactly when the naive
model's bounds check passes. -/
theorem C1_gap_buffer_roundtrip (ops : List BufOp) (sz : Nat) :
    (List.range (runGap ops (GapBuffer.new sz)).1.size).map
        (runGap ops (GapBuffer.new sz)).1.get =
      (runNaive ops []).1.map some ∧
    (runGap ops (GapBuffer.new sz)).2 = (runNaive ops []).2 := by
  have hwf0 : (GapBuffer.new sz).Wf := by
    constructor
    · exact Nat.zero_le _
    · simp [GapBuffer.new]
  have hc0 : (GapBuffer.new sz).contents = [] := by
    unfold GapBuffer.contents GapBuffer.new
    simp
  obtain ⟨hwf, hc, hb⟩ := runOps_refines ops (GapBuffer.new sz) [] hwf0 hc0
  refine ⟨?_, hb⟩
  have hsz : (runGap ops (GapBuffer.new sz)).1.size =
      (runGap ops (GapBuffer.new sz)).1.contents.length :=
    (GapBuffer.contents_length _ hwf).symm
  rw [hsz]
  rw [List.map_congr_left
    (fun i _ => GapBuffer.get_eq (runGap ops (GapBuffer.new sz)).1 hwf i)]
  rw [← hc]
  exact range_map_getElem? _

/-! ## Emacs buffer (src/emacs_buffer.rs)

The `Buffer` trait object is instantiated with the gap buffer (the only
`Buffer` implementation in the program). -/

def EOLCHAR : Nat := 10

def MARK_FIRST_TEMP : Nat := 48
def MARK_MAX_TEMP : Nat := 10
def MARK_LAST_TEMP : Nat := MARK_FIRST_TEMP + MARK_MAX_TEMP - 1
def MARK_FIRST_PERM : Nat := 64
def MARK_MAX_PERM : Nat := 27
def MARK_LAST_PERM : Nat := MARK_FIRST_PERM + MARK_MAX_PERM - 1
def MARK_PREV_CHAR : Nat := 60
def MARK_NEXT_CHAR : Nat := 62
def MARK_BOB : Nat := 91
def MARK_EOB : Nat := 93
def MARK_BOL : Nat := 94
def MARK_EOL : Nat := 36
def MARK_PREV_BLANK : Nat := 45
def MARK_NEXT_BLANK : Nat := 43
def MARK_PREV_NBLANK : Nat := 123
def MARK_NEXT_NBLANK : Nat := 125
def MARK_POINT : Nat := 46
def MARK_TOPLINE : Nat := 33

def MAX_MARKS : Nat := 50

/-- `u8::is_ascii_whitespace`: space, tab, newline, form feed, carriage
return. -/
def isAsciiWhitespace (ch : Nat) : Bool :=
  ch = 32 || ch = 9 || ch = 10 || ch = 12 || ch = 13

structure EmacsBuffer where
  wp : Bool
  modified : Bool
  point : Nat
  topline : Nat
  leftcol : Nat
  tab_width : Nat
  temp_mark_base : Nat
  temp_mark_last : Nat
  perm_mark_count : Nat
  marks_sp : Nat
  marks : List Nat
  mark_stack : List Nat
  point_line : Nat
  topline_line : Nat
  count_newlines : Nat
  bufno : Nat
  text : GapBuffer
deriving DecidableEq

namespace EmacsBuffer

/-- `EmacsBuffer::new(bufno, text)`. -/
def new (bufno : Nat) (text : GapBuffer) : EmacsBuffer :=
  { wp := false, modified := false, point := 0, topline := 0, leftcol := 0,
    tab_width := 8, temp_mark_base := 1, temp_mark_last := 1,
    perm_mark_count := 1, marks_sp := 0,
    marks := List.replicate MAX_MARKS 0,
    mark_stack := List.replicate MAX_MARKS 0,
    point_line := 0, topline_line := 0, count_newlines := 0,
    bufno := bufno, text := text }

/-- `EmacsBuffer::size`. -/
def size (eb : EmacsBuffer) : Nat := eb.text.size

/-- `EmacsBuffer::find_bol`: scan backward for a newline (the loop
`while pos > 0 { pos -= 1; ... }` is structural recursion on `pos`). -/
def find_bol (eb : EmacsBuffer) : Nat → Nat
  | 0 => 0
  | pos + 1 => if eb.text.get pos = some EOLCHAR then pos + 1
               else eb.find_bol pos

/-- Forward-scanning loop body shared by `find_eol` and the blank scans:
`k` is the remaining iteration budget `size - pos`. -/
def find_eol_go (eb : EmacsBuffer) : Nat → Nat → Nat
  | 0, pos => pos
  | k + 1, pos => if eb.text.get pos = some EOLCHAR then pos
                  else eb.find_eol_go k (pos + 1)

/-- `EmacsBuffer::find_eol`: scan forward for a newline, stopping at
`size`. -/
def find_eol (eb : EmacsBuffer) (frompos : Nat) : Nat :=
  if eb.size ≤ frompos then eb.size
  else eb.find_eol_go (eb.size - frompos) frompos

/-- `EmacsBuffer::find_prev_blank`. -/
def find_prev_blank (eb : EmacsBuffer) : Nat → Nat
  | 0 => 0
  | pos + 1 =>
      if (eb.text.get pos).elim false isAsciiWhitespace then pos
      else eb.find_prev_blank pos

def find_next_blank_go (eb : EmacsBuffer) : Nat → Nat → Nat
  | 0, pos => pos
  | k + 1, pos =>
      if (eb.text.get pos).elim false isAsciiWhitespace then pos
      else eb.find_next_blank_go k (pos + 1)

/-- `EmacsBuffer::find_next_blank`. -/
def find_next_blank (eb : EmacsBuffer) (frompos : Nat) : Nat :=
  if eb.size ≤ frompos then eb.size
  else eb.find_next_blank_go (eb.size - frompos) frompos

/-- `EmacsBuffer::find_prev_nblank`. -/
def find_prev_nblank (eb : EmacsBuffer) : Nat → Nat
  | 0 => 0
  | pos + 1 =>
      if (eb.text.get pos).elim false (fun ch => !(isAsciiWhitespace ch))
      then pos
      else eb.find_prev_nblank pos

def find_next_nblank_go (eb : EmacsBuffer) : Nat → Nat → Nat
  | 0, pos => pos
  | k + 1, pos =>
      if (eb.text.get pos).elim false (fun ch => !(isAsciiWhitespace ch))
      then pos
      else eb.find_next_nblank_go k (pos + 1)

/-- `EmacsBuffer::find_next_nblank`. -/
def find_next_nblank (eb : EmacsBuffer) (frompos : Nat) : Nat :=
  if eb.size ≤ frompos then eb.size
  else eb.find_next_nblank_go (eb.size - frompos) frompos

/-- `EmacsBuffer::get_mark_position_from`. -/
def get_mark_position_from (eb : EmacsBuffer) (mark : Nat) (frompos : Nat) :
    Nat :=
  if mark = MARK_POINT then eb.point
  else if mark = MARK_BOB then 0
  else if mark = MARK_EOB then eb.size
  else if mark = MARK_TOPLINE then eb.topline
  else if mark = MARK_BOL then eb.find_bol frompos
  else if mark = MARK_EOL then eb.find_eol frompos
  else if mark = MARK_PREV_CHAR then (if frompos > 0 then frompos - 1 else 0)
  else if mark = MARK_NEXT_CHAR then
    (if frompos < eb.size then frompos + 1 else eb.size)
  else if mark = MARK_PREV_BLANK then eb.find_prev_blank frompos
  else if mark = MARK_NEXT_BLANK then eb.find_next_blank frompos
  else if mark = MARK_PREV_NBLANK then eb.find_prev_nblank frompos
  else if mark = MARK_NEXT_NBLANK then eb.find_next_nblank frompos
  else if MARK_FIRST_TEMP ≤ mark ∧ mark ≤ MARK_LAST_TEMP ∧
      eb.temp_mark_base + (mark - MARK_FIRST_TEMP) < eb.temp_mark_last then
    eb.marks.getD (eb.temp_mark_base + (mark - MARK_FIRST_TEMP)) 0
  else if MARK_FIRST_PERM ≤ mark ∧ mark ≤ MARK_LAST_PERM ∧
      mark - MARK_FIRST_PERM < eb.perm_mark_count then
    eb.marks.getD (mark - MARK_FIRST_PERM) 0
  else frompos

/-- `EmacsBuffer::get_mark_position`. -/
def get_mark_position (eb : EmacsBuffer) (mark : Nat) : Nat :=
  eb.get_mark_position_from mark eb.point

/-- `EmacsBuffer::set_mark_position`. -/
def set_mark_position (eb : EmacsBuffer) (mark : Nat) (position : Nat) :
    Bool × EmacsBuffer :=
  let adjusted_pos := min eb.text.size position
  if MARK_FIRST_TEMP ≤ mark ∧
      eb.temp_mark_base + (mark - MARK_FIRST_TEMP) < eb.temp_mark_last then
    let ms := eb.marks.set (eb.temp_mark_base + (mark - MARK_FIRST_TEMP))
      adjusted_pos
    (true, { eb with marks := ms })
  else if MARK_FIRST_PERM ≤ mark ∧
      mark - MARK_FIRST_PERM < eb.perm_mark_count then
    let ms := eb.marks.set (mark - MARK_FIRST_PERM) adjusted_pos
    (true, { eb with marks := ms })
  else (false, eb)

/-- `EmacsBuffer::set_mark`. -/
def set_mark (eb : EmacsBuffer) (mark dest_mark : Nat) : Bool × EmacsBuffer :=
  eb.set_mark_position mark (eb.get_mark_position dest_mark)

/-- `EmacsBuffer::count_newlines(from, to)` (the range loop over
`text.get`). -/
def countNewlines (eb : EmacsBuffer) (a b : Nat) : Nat :=
  ((List.range' a (b - a)).filter
    (fun i => eb.text.get i = some EOLCHAR)).length

/-- `EmacsBuffer::adjust_marks_ins`. -/
def adjust_marks_ins (eb : EmacsBuffer) (n : Nat) : EmacsBuffer :=
  let ms := eb.marks.map (fun m => if m > eb.point then m + n else m)
  let tl := if eb.topline > eb.point then eb.topline + n else eb.topline
  { eb with marks := ms, topline := tl }

/-- `EmacsBuffer::adjust_marks_del` (`saturating_sub` is `Nat`
subtraction). -/
def adjust_marks_del (eb : EmacsBuffer) (n : Nat) : EmacsBuffer :=
  let ms := eb.marks.map (fun m => if m > eb.point then m - n else m)
  let tl := if eb.topline > eb.point then eb.topline - n else eb.topline
  { eb with marks := ms, topline := tl }

/-- `EmacsBuffer::insert_string`. -/
def insert_string (eb : EmacsBuffer) (s : List Nat) : Bool × EmacsBuffer :=
  if eb.wp then (false, eb)
  else
    match eb.text.insert eb.point s with
    | (false, t1) => (false, { eb with text := t1 })
    | (true, t1) =>
        let newline_count := (s.filter (fun ch => ch = EOLCHAR)).length
        let eb1 := ({ eb with text := t1 }).adjust_marks_ins s.length
        let eb2 := { eb1 with point := eb1.point + s.length }
        let eb3 := { eb2 with point_line := eb2.point_line + newline_count }
        let eb4 := { eb3 with modified := true }
        (true, { eb4 with count_newlines := eb4.count_newlines + newline_count })

/-- `EmacsBuffer::push_temp_marks`. -/
def push_temp_marks (eb : EmacsBuffer) (n : Nat) : Bool × EmacsBuffer :=
  if eb.temp_mark_last + n ≤ MAX_MARKS then
    let st := eb.mark_stack.set eb.marks_sp eb.temp_mark_base
    let eb1 :=
      { eb with
        mark_stack := st
        marks_sp := eb.marks_sp + 1
        temp_mark_base := eb.temp_mark_last
        temp_mark_last := eb.temp_mark_last + n }
    let ms := (List.range n).foldl
      (fun ms i => ms.set (eb1.temp_mark_base + i) eb1.point) eb1.marks
    (true, { eb1 with marks := ms })
  else (false, eb)

/-- `EmacsBuffer::pop_temp_marks`. -/
def pop_temp_marks (eb : EmacsBuffer) : Bool × EmacsBuffer :=
  if eb.marks_sp > 0 then
    let eb1 :=
      { eb with
        temp_mark_last := eb.temp_mark_base
        marks_sp := eb.marks_sp - 1
        temp_mark_base := eb.mark_stack.getD (eb.marks_sp - 1) 0 }
    (true, eb1)
  else (false, eb)

/-- `EmacsBuffer::create_perm_marks`. -/
def create_perm_marks (eb : EmacsBuffer) (n : Nat) : Bool × EmacsBuffer :=
  if n ≤ MARK_MAX_PERM then
    let eb1 :=
      { eb with
        perm_mark_count := n
        temp_mark_base := n
        temp_mark_last := n
        marks_sp := 0 }
    (true, eb1)
  else (false, eb)

/-- `EmacsBuffer::delete_to_mark`.  Note that `point` is assigned before the
`mark_pos < self.point` comparison, exactly as in the source. -/
def delete_to_mark (eb : EmacsBuffer) (mark : Nat) : Bool × EmacsBuffer :=
  if eb.wp then (false, eb)
  else
    let mark_pos := eb.get_mark_position mark
    let min_pos := min mark_pos eb.point
    let max_pos := max mark_pos eb.point
    let delete_len := max_pos - min_pos
    if delete_len = 0 then (true, eb)
    else
      let newline_count := eb.countNewlines min_pos max_pos
      match eb.text.erase min_pos delete_len with
      | (false, t1) => (false, { eb with text := t1 })
      | (true, t1) =>
          let eb1 := { eb with text := t1, point := min_pos }
          let eb2 := eb1.adjust_marks_del delete_len
          let eb3 := if mark_pos < eb2.point then
              { eb2 with point_line := eb2.point_line - newline_count }
            else eb2
          let eb4 := { eb3 with modified := true }
          (true, { eb4 with count_newlines := eb4.count_newlines - newline_count })

/-- `EmacsBuffer::delete_to_marks`. -/
def delete_to_marks (eb : EmacsBuffer) : List Nat → Bool × EmacsBuffer
  | [] => (true, eb)
  | m :: rest =>
      match eb.delete_to_mark m with
      | (true, eb1) => eb1.delete_to_marks rest
      | (false, eb1) => (false, eb1)

/-- `EmacsBuffer::set_point_to_mark`. -/
def set_point_to_mark (eb : EmacsBuffer) (mark : Nat) : EmacsBuffer :=
  let p := eb.get_mark_position mark
  { eb with point := p, point_line := eb.countNewlines 0 p }

/-- `EmacsBuffer::forward_lines`. -/
def forward_lines (eb : EmacsBuffer) (pos : Nat) : Nat → Nat
  | 0 => pos
  | n + 1 =>
      let p1 := eb.get_mark_position_from MARK_EOL pos
      let p2 := eb.get_mark_position_from MARK_NEXT_CHAR p1
      eb.forward_lines p2 n

/-- `EmacsBuffer::backward_lines`. -/
def backward_lines (eb : EmacsBuffer) (pos : Nat) : Nat → Nat
  | 0 => pos
  | n + 1 =>
      let p1 := eb.get_mark_position_from MARK_PREV_CHAR pos
      let p2 := eb.get_mark_position_from MARK_BOL p1
      eb.backward_lines p2 n

/-- `EmacsBuffer::set_point_line`. -/
def set_point_line (eb : EmacsBuffer) (lno : Nat) : EmacsBuffer :=
  if lno ≤ eb.point_line then
    { eb with
      point := eb.backward_lines eb.point (eb.point_line - lno)
      point_line := lno }
  else
    { eb with
      point := eb.forward_lines eb.point (lno - eb.point_line)
      point_line := lno }

end EmacsBuffer

/-! ## Claims C4-C7 and C10 (emacs_buffer.rs) -/

/-- Concrete buffer "a\nb" right after insertion (point 3, one newline). -/
def bufAB : EmacsBuffer :=
  ((EmacsBuffer.new 1 (GapBuffer.new 8)).insert_string [97, 10, 98]).2

/-- Concrete buffer "abcdef" right after insertion (point 6). -/
def bufABCDEF : EmacsBuffer :=
  ((EmacsBuffer.new 1 (GapBuffer.new 8)).insert_string
    [97, 98, 99, 100, 101, 102]).2

/-- `bufABCDEF` with permanent mark `'@'` set to 3 and point moved back to
2 by four `'<'` point motions. -/
def bufMarked : EmacsBuffer :=
  ((((bufABCDEF.set_mark_position 64 3).2.set_point_to_mark
    60).set_point_to_mark 60).set_point_to_mark 60).set_point_to_mark 60

/-- Concrete buffer "abc" with permanent mark `'@'` at 3 and point moved to
the beginning of the buffer. -/
def bufABCatBOB : EmacsBuffer :=
  (((EmacsBuffer.new 1 (GapBuffer.new 8)).insert_string
    [97, 98, 99]).2.set_mark_position 64 3).2.set_point_to_mark 91

/-- C10: when no temporary-mark push is outstanding (`marks_sp = 0`),
`pop_temp_marks` returns `false` and leaves the buffer completely
unchanged. -/
theorem C10_pop_temp_marks_noop (eb : EmacsBuffer) (h : eb.marks_sp = 0) :
    eb.pop_temp_marks = (false, eb) := by
  unfold EmacsBuffer.pop_temp_marks
  rw [if_neg (by omega)]

/-- Witness for C10 at a concrete freshly-created buffer. -/
theorem C10_pop_temp_marks_noop_witness :
    (EmacsBuffer.new 1 (GapBuffer.new 4)).marks_sp = 0 ∧
    (EmacsBuffer.new 1 (GapBuffer.new 4)).pop_temp_marks =
      (false, EmacsBuffer.new 1 (GapBuffer.new 4)) :=
  ⟨rfl, C10_pop_temp_marks_noop (EmacsBuffer.new 1 (GapBuffer.new 4)) rfl⟩

/-- C7: after a successful `insert_string`, every stored mark slot (and
`topline`) is shifted up by `len(s)` exactly when its old value was
strictly greater than point at insert time, and is otherwise unchanged. -/
theorem C7_insert_mark_shift (eb : EmacsBuffer) (s : List Nat)
    (h : (eb.insert_string s).1 = true) :
    (eb.insert_string s).2.marks =
      eb.marks.map (fun m => if m > eb.point then m + s.length else m) ∧
    (eb.insert_string s).2.topline =
      (if eb.topline > eb.point then eb.topline + s.length else eb.topline)
    := by
  unfold EmacsBuffer.insert_string at h ⊢
  by_cases hwp : eb.wp
  · rw [if_pos hwp] at h
    exact absurd h (by simp)
  · rw [if_neg hwp] at h ⊢
    rcases hins : eb.text.insert eb.point s with ⟨b, t1⟩
    rw [hins] at h
    cases b
    · dsimp only at h
      exact absurd h (by simp)
    · dsimp only
      unfold EmacsBuffer.adjust_marks_ins
      dsimp only
      exact ⟨rfl, rfl⟩

/-- Witness for C7: inserting "xy" in `bufABCatBOB` (point 0, mark at 3)
succeeds and shifts the stored mark from 3 to 5. -/
theorem C7_insert_mark_shift_witness :
    (bufABCatBOB.insert_string [120, 121]).1 = true ∧
    (bufABCatBOB.insert_string [120, 121]).2.marks =
      bufABCatBOB.marks.map (fun m =>
        if m > bufABCatBOB.point then m + 2 else m) ∧
    (bufABCatBOB.insert_string [120, 121]).2.marks.getD 0 0 = 5 := by
  refine ⟨by decide, ?_, by decide⟩
  exact (C7_insert_mark_shift bufABCatBOB [120, 121] (by decide)).1

/-- C4 (code bug): the line-bookkeeping invariant
`point_line = count_newlines(0..point)` is broken by `delete_to_marks`:
after inserting "a\nb" (point 3, point_line 1) and deleting to mark
`'['`, point is 0 but `point_line` is still 1 while no newline remains
before point. -/
theorem C4_line_bookkeeping_violation :
    (bufAB.delete_to_marks [91]).1 = true ∧
    (bufAB.delete_to_marks [91]).2.point = 0 ∧
    (bufAB.delete_to_marks [91]).2.point_line = 1 ∧
    (bufAB.delete_to_marks [91]).2.countNewlines 0
      (bufAB.delete_to_marks [91]).2.point = 0 := by
  decide

/-- C5 (code bug): deleting to a mark that lies before point erases the
range, sets point to the lower bound and fixes `count_newlines`, but never
subtracts the deleted newlines from `point_line`: the comparison
`mark_pos < self.point` is evaluated after `self.point = min_pos`, so it
is always false.  Here one newline is deleted with the mark before point,
yet `point_line` stays 1 instead of dropping to 0. -/
theorem C5_point_line_not_decremented :
    bufAB.point = 3 ∧ bufAB.point_line = 1 ∧
    bufAB.get_mark_position 91 = 0 ∧
    (bufAB.delete_to_mark 91).1 = true ∧
    (bufAB.delete_to_mark 91).2.point = 0 ∧
    (bufAB.delete_to_mark 91).2.count_newlines = 0 ∧
    (bufAB.delete_to_mark 91).2.point_line = 1 := by
  decide

/-- C6 counterexample: in `bufMarked` (point 2, stored mark at 3), deleting
to end of buffer (`']'`, offset 6) erases `[2, 6)`; the stored mark becomes
`3 - 4` saturated at zero, i.e. 0, strictly below the post-delete point 2 —
refuting "saturating at point (an adjusted mark never ends up below the
post-delete point)". -/
theorem C6_counterexample :
    bufMarked.marks.getD 0 0 = 3 ∧
    bufMarked.point = 2 ∧
    (bufMarked.delete_to_mark 93).1 = true ∧
    (bufMarked.delete_to_mark 93).2.point = 2 ∧
    (bufMarked.delete_to_mark 93).2.marks.getD 0 0 = 0 := by
  decide

/-- C6 amended: during a successful deletion to a mark, every stored mark
slot (and `topline`) strictly greater than the post-delete point
`lo = min(mark_pos, point)` is moved down by `hi - lo` saturating at zero
(so a mark inside the deleted range may end up strictly below the
post-delete point); marks at or before `lo` are unchanged. -/
theorem C6_amended_delete_mark_adjust (eb : EmacsBuffer) (mark : Nat)
    (h : (eb.delete_to_mark mark).1 = true) :
    (eb.delete_to_mark mark).2.marks =
      eb.marks.map (fun m =>
        if m > min (eb.get_mark_position mark) eb.point then
          m - (max (eb.get_mark_position mark) eb.point -
            min (eb.get_mark_position mark) eb.point)
        else m) ∧
    (eb.delete_to_mark mark).2.topline =
      (if eb.topline > min (eb.get_mark_position mark) eb.point then
        eb.topline - (max (eb.get_mark_position mark) eb.point -
          min (eb.get_mark_position mark) eb.point)
      else eb.topline) := by
  unfold EmacsBuffer.delete_to_mark at h ⊢
  by_cases hwp : eb.wp
  · rw [if_pos hwp] at h
    exact absurd h (by simp)
  · rw [if_neg hwp] at h ⊢
    dsimp only at h ⊢
    by_cases hlen : max (eb.get_mark_position mark) eb.point -
        min (eb.get_mark_position mark) eb.point = 0
    · rw [if_pos hlen] at h ⊢
      dsimp only
      rw [hlen]
      constructor
      · conv_lhs => rw [← List.map_id eb.marks]
        apply List.map_congr_left
        intro m _
        simp
      · simp
    · rw [if_neg hlen] at h ⊢
      rcases hers : eb.text.erase (min (eb.get_mark_position mark) eb.point)
          (max (eb.get_mark_position mark) eb.point -
            min (eb.get_mark_position mark) eb.point) with ⟨b, t1⟩
      rw [hers] at h
      cases b
      · dsimp only at h
        exact absurd h (by simp)
      · dsimp only
        unfold EmacsBuffer.adjust_marks_del
        dsimp only
        constructor
        · split <;> rfl
        · split <;> rfl

/-- Witness for the amended C6 at the counterexample state `bufMarked`. -/
theorem C6_amended_delete_mark_adjust_witness :
    (bufMarked.delete_to_mark 93).1 = true ∧
    (bufMarked.delete_to_mark 93).2.marks =
      bufMarked.marks.map (fun m => if m > 2 then m - 4 else m) := by
  constructor
  · decide
  · have hm := (C6_amended_delete_mark_adjust bufMarked 93 (by decide)).1
    have h93 : bufMarked.get_mark_position 93 = 6 := by decide
    have hpt : bufMarked.point = 2 := by decide
    rw [h93, hpt] at hm
    exact hm

/-! ## Argument kinds (src/mint_arg.rs) -/

inductive ArgType where
  | Null
  | Arg
  | Active
  | Neutral
  | End
deriving DecidableEq

namespace ArgType

/-- Discriminant values assigned in the source: `Null = 0x80`,
`Arg = 0x01`, `Active = 0x82`, `Neutral = 0x83`, `End = 0x04`. -/
def val : ArgType → Nat
  | .Null => 0x80
  | .Arg => 0x01
  | .Active => 0x82
  | .Neutral => 0x83
  | .End => 0x04

/-- `ArgType::is_term`: `(self as u8) & 0x80 != 0`. -/
def is_term (t : ArgType) : Bool := (t.val &&& 0x80) != 0

end ArgType

/-- C8 counterexample: the claim that each of `Null`, `Active`, `Neutral`
and `End` has the 0x80 bit set (is terminal) while `Arg` is not fails:
`End` is encoded as 0x04, so `is_term End = false`. -/
theorem C8_counterexample :
    ¬ (ArgType.Null.is_term = true ∧ ArgType.Active.is_term = true ∧
       ArgType.Neutral.is_term = true ∧ ArgType.End.is_term = true ∧
       ArgType.Arg.is_term = false) := by
  decide

/-- C8 amended: `Null` (0x80), `Active` (0x82) and `Neutral` (0x83) are
terminal for argument-stack scanning; `End` is encoded as 0x04 and `Arg`
as 0x01, so neither has the high bit set. -/
theorem C8_amended_terminal_kinds :
    ArgType.Null.is_term = true ∧ ArgType.Active.is_term = true ∧
    ArgType.Neutral.is_term = true ∧ ArgType.End.is_term = false ∧
    ArgType.Arg.is_term = false ∧ ArgType.End.val = 0x04 := by
  decide

/-! ## Buffer search (src/emacs_buffers.rs, src/gap_buffer.rs)

The one external piece is the `regex::bytes::Regex` engine.  `lp` in plain
mode builds the regex with `regex::escape`, i.e. a literal byte-string
matcher, which is what we model: `find` is the leftmost literal occurrence
and `find_iter` the sequence of leftmost non-overlapping occurrences. -/

namespace GapBuffer

/-- `GapBuffer::slice(start, end)`: borrow either contiguous region, or
materialize a copy via `get` when the range spans the gap. -/
def slice (gb : GapBuffer) (start stop : Nat) : List Nat :=
  if start ≥ stop then []
  else if stop ≤ gb.bottop then (gb.buffer.drop start).take (stop - start)
  else if start ≥ gb.bottop then
    (gb.buffer.drop (start + gb.free)).take (stop - start)
  else (List.range' start (stop - start)).filterMap gb.get

end GapBuffer

/-- Scanner behind `find_iter` for a literal pattern: leftmost
non-overlapping occurrences, advancing by one byte past an empty match.
`fuel` only bounds the loop; `hay.length + 2` always suffices. -/
def litMatchesGo (pat hay : List Nat) : Nat → Nat → List (Nat × Nat)
  | 0, _ => []
  | fuel + 1, pos =>
      if pos > hay.length then []
      else if pat.isPrefixOf (hay.drop pos) then
        (pos, pos + pat.length) ::
          litMatchesGo pat hay fuel (pos + max pat.length 1)
      else litMatchesGo pat hay fuel (pos + 1)

/-- All matches of the literal pattern `pat` in `hay`
(`Regex::find_iter`). -/
def litMatches (pat hay : List Nat) : List (Nat × Nat) :=
  litMatchesGo pat hay (hay.length + 2) 0

/-- `Regex::find` for a literal pattern: the leftmost match. -/
def litFind (pat hay : List Nat) : Option (Nat × Nat) :=
  (litMatches pat hay).head?

namespace GapBuffer

/-- `Buffer::find_forward` for `GapBuffer` (literal pattern). -/
def find_forward (gb : GapBuffer) (pat : List Nat) (start stop : Nat) :
    Option (Nat × Nat) :=
  (litFind pat (gb.slice start stop)).map
    (fun m => (start + m.1, start + m.2))

/-- `Buffer::find_backward` for `GapBuffer`: the last of the `find_iter`
matches (literal pattern). -/
def find_backward (gb : GapBuffer) (pat : List Nat) (start stop : Nat) :
    Option (Nat × Nat) :=
  (litMatches pat (gb.slice start stop)).getLast?.map
    (fun m => (start + m.1, start + m.2))

end GapBuffer

namespace EmacsBuffer

/-- `EmacsBuffer::find_forward` (delegation to the text buffer). -/
def find_forward (eb : EmacsBuffer) (pat : List Nat) (start stop : Nat) :
    Option (Nat × Nat) :=
  eb.text.find_forward pat start stop

/-- `EmacsBuffer::find_backward` (delegation to the text buffer). -/
def find_backward (eb : EmacsBuffer) (pat : List Nat) (start stop : Nat) :
    Option (Nat × Nat) :=
  eb.text.find_backward pat start stop

end EmacsBuffer

/-- The buffers registry restricted to what `search` touches: the one
compiled pattern and the current buffer. -/
structure EmacsBuffers where
  regex : Option (List Nat)
  current_buffer : EmacsBuffer
deriving DecidableEq

namespace EmacsBuffers

/-- `EmacsBuffers::set_search_string` (plain mode): an escaped literal
always compiles, and the empty string clears the pattern. -/
def set_search_string (bufs : EmacsBuffers) (s : List Nat) :
    Bool × EmacsBuffers :=
  if s = [] then (true, { bufs with regex := none })
  else (true, { bufs with regex := some s })

/-- `EmacsBuffers::search_forward`. -/
def search_forward (bufs : EmacsBuffers) (pat : List Nat)
    (ss_n se_n ms me : Nat) : Bool × EmacsBuffers :=
  match bufs.current_buffer.find_forward pat ss_n se_n with
  | some m =>
      let b1 := if ms ≠ 0 then
          (bufs.current_buffer.set_mark_position ms m.1).2
        else bufs.current_buffer
      let b2 := if me ≠ 0 then (b1.set_mark_position me m.2).2 else b1
      (true, { bufs with current_buffer := b2 })
  | none => (false, bufs)

/-- `EmacsBuffers::search_backward`.  Note the range is passed through as
`(ss_n, se_n)` exactly as in the source. -/
def search_backward (bufs : EmacsBuffers) (pat : List Nat)
    (ss_n se_n ms me : Nat) : Bool × EmacsBuffers :=
  match bufs.current_buffer.find_backward pat ss_n se_n with
  | some m =>
      let b1 := if ms ≠ 0 then
          (bufs.current_buffer.set_mark_position ms m.1).2
        else bufs.current_buffer
      let b2 := if me ≠ 0 then (b1.set_mark_position me m.2).2 else b1
      (true, { bufs with current_buffer := b2 })
  | none => (false, bufs)

/-- `EmacsBuffers::search`. -/
def search (bufs : EmacsBuffers) (ss se ms me : Nat) :
    Bool × EmacsBuffers :=
  match bufs.regex with
  | none =>
      let b1 := if ms ≠ 0 then
          (bufs.current_buffer.set_mark ms MARK_POINT).2
        else bufs.current_buffer
      let b2 := if me ≠ 0 then (b1.set_mark me MARK_POINT).2 else b1
      (true, { bufs with current_buffer := b2 })
  | some pat =>
      let ss_n := min (bufs.current_buffer.get_mark_position ss)
        bufs.current_buffer.size
      let se_n := min (bufs.current_buffer.get_mark_position se)
        bufs.current_buffer.size
      if ss_n ≤ se_n then bufs.search_forward pat ss_n se_n ms me
      else bufs.search_backward pat ss_n se_n ms me

end EmacsBuffers

/-- Concrete buffer "abab" with point 4. -/
def bufABAB : EmacsBuffer :=
  ((EmacsBuffer.new 1 (GapBuffer.new 8)).insert_string [97, 98, 97, 98]).2

/-- Registry holding `bufABAB` with the literal search pattern "ab" set via
`set_search_string`. -/
def bufsABAB : EmacsBuffers :=
  (EmacsBuffers.set_search_string
    { regex := none, current_buffer := bufABAB } [97, 98]).2

/-- C3 (code bug): with buffer "abab", point 4 and literal pattern "ab",
`search('.', '[', 0, 0)` resolves the bounds to `ss_n = 4 > se_n = 0` and
takes the backward branch — which passes `(ss_n, se_n) = (4, 0)` unswapped
to `find_backward`, whose slice of the inverted range is empty, so the
search reports failure and changes nothing; yet the pattern matches in
`[se_n, ss_n) = [0, 4)` and the rightmost match there is `(2, 4)`, which
the claim says should be reported. -/
theorem C3_backward_search_dead :
    bufsABAB.current_buffer.get_mark_position 46 = 4 ∧
    bufsABAB.current_buffer.get_mark_position 91 = 0 ∧
    bufsABAB.search 46 91 0 0 = (false, bufsABAB) ∧
    bufABAB.text.slice 4 0 = [] ∧
    litMatches [97, 98] (bufABAB.text.slice 0 4) = [(0, 2), (2, 4)] ∧
    bufABAB.text.find_backward [97, 98] 0 4 = some (2, 4) := by
  decide

/-! ## Forms and parameter markers (src/mint_form.rs, src/frmprim.rs,
src/mint.rs) -/

structure MintForm where
  content : List Nat
  index : Nat
deriving DecidableEq

namespace MintForm

/-- `MintForm::from_string` (used by `set_form_value`, which resets the
cursor to 0). -/
def from_string (s : List Nat) : MintForm := { content := s, index := 0 }

/-- `MintForm::get_pos`. -/
def get_pos (f : MintForm) : Nat := min f.index f.content.length

end MintForm

/-- The scan-and-splice loop of `MpPrim::execute` for one (nonempty) name
`y` and marker byte `m`: at each position, if the name matches, the
matched range is spliced to the single marker byte and scanning resumes
one past the marker.  The Rust `while pos < form_value.len()` loop
strictly decreases `form_value.len() - pos`, so `fuel = v.length` makes
the bounded version coincide with it. -/
def mpLoopGo (y : List Nat) (m : Nat) : Nat → List Nat → Nat → List Nat
  | 0, v, _ => v
  | fuel + 1, v, pos =>
      if pos < v.length then
        if pos + y.length ≤ v.length ∧ (v.drop pos).take y.length = y then
          mpLoopGo y m fuel (v.take pos ++ m :: v.drop (pos + y.length))
            (pos + 1)
        else mpLoopGo y m fuel v (pos + 1)
      else v

/-- One name pass of `MpPrim::execute`. -/
def mpLoop (y : List Nat) (m : Nat) (v : List Nat) : List Nat :=
  mpLoopGo y m v.length v 0

/-- The fold of `MpPrim::execute` over the name arguments: empty names are
skipped, `param_marker` starts at 0x80 and is incremented as a `u8` after
every name. -/
def mpTransform : List Nat → List (List Nat) → Nat → List Nat
  | v, [], _ => v
  | v, y :: rest, marker =>
      mpTransform (if y ≠ [] then mpLoop y marker v else v) rest
        ((marker + 1) % 256)

/-- `MpPrim::execute` applied to a form whose value is `body`. -/
def mpExecute (body : List Nat) (names : List (List Nat)) : List Nat :=
  mpTransform body names 0x80

/-- `Mint::return_seg_string` in neutral mode: bytes below 0x80 are
emitted literally; a marker byte `ch` expands to the value of
`args[(ch - 0x80).min(last_index as u8)]`, where indexing a `MintArgList`
out of range yields the empty `End` sentinel. -/
def segStringNeutral (ss : List Nat) (argvals : List (List Nat)) :
    List Nat :=
  ss.flatMap (fun ch =>
    if 0x80 ≤ ch then
      argvals.getD (min (ch - 0x80) ((argvals.length - 1) % 256)) []
    else [ch])

/-- The `#(ds,F,body) #(mp,F,Y1,...,Yn) ##(F,a1,...,an)` pipeline: `ds`
stores the form (cursor 0), `mp` rewrites its value in place, and the
neutral call expands the remaining content against the argument list
`[head = F, a1, ..., an, End]` produced by `pop_arguments`. -/
def roundTrip (fname body : List Nat) (names : List (List Nat))
    (avs : List (List Nat)) : List Nat :=
  let form := MintForm.from_string body
  let form1 := MintForm.from_string (mpExecute form.content names)
  segStringNeutral (form1.content.drop form1.get_pos)
    (fname :: avs ++ [[]])

/-- The substitution claimed by C2 (read as simultaneous replacement, here
for single-byte names): every occurrence of name `Yi` becomes `ai`. -/
def claimedSubst (body ys : List Nat) (avs : List (List Nat)) : List Nat :=
  body.flatMap (fun b =>
    if b ∈ ys then avs.getD (ys.indexOf b) [] else [b])

/-- C2 counterexample: `#(ds,f,XY) #(mp,f,X,Y) ##(f,A,B)` yields "fA", not
"AB": `mp` numbers the first name from marker 0x80, which
`return_seg_string` resolves to argument index 0 — the call head (the form
name), so `X` expands to "f" and `Y` to the first argument "A". -/
theorem C2_counterexample :
    roundTrip [102] [88, 89] [[88], [89]] [[65], [66]] = [102, 65] ∧
    claimedSubst [88, 89] [88, 89] [[65], [66]] = [65, 66] ∧
    roundTrip [102] [88, 89] [[88], [89]] [[65], [66]] ≠
      claimedSubst [88, 89] [88, 89] [[65], [66]] := by
  decide

theorem mpLoopGo_single (y0 m : Nat) :
    ∀ fuel v pos, v.length - pos ≤ fuel →
      mpLoopGo [y0] m fuel v pos =
        v.take pos ++ (v.drop pos).map (fun b => if b = y0 then m else b) := by
  intro fuel
  induction fuel with
  | zero =>
    intro v pos hf
    unfold mpLoopGo
    rw [List.drop_of_length_le (by omega), List.map_nil, List.append_nil]
    rw [List.take_of_length_le (by omega)]
  | succ fuel ih =>
    intro v pos hf
    unfold mpLoopGo
    simp only [List.length_singleton]
    by_cases hp : pos < v.length
    · rw [if_pos hp]
      have hdrop : v.drop pos = v[pos] :: v.drop (pos + 1) :=
        List.drop_eq_getElem_cons hp
      by_cases he : v[pos] = y0
      · rw [if_pos ⟨by omega, by rw [hdrop]; simp [he]⟩]
        have hlen1 : (v.take pos ++ m :: v.drop (pos + 1)).length =
            v.length := by
          simp
          omega
        rw [ih _ _ (by rw [hlen1]; omega)]
        have htk : (v.take pos ++ m :: v.drop (pos + 1)).take (pos + 1) =
            v.take pos ++ [m] := by
          rw [List.take_append_eq_append_take]
          rw [List.length_take, show min pos v.length = pos by omega]
          rw [List.take_of_length_le (by simp only [List.length_take]; omega)]
          rw [show pos + 1 - pos = 1 by omega]
          rfl
        have hdp : (v.take pos ++ m :: v.drop (pos + 1)).drop (pos + 1) =
            v.drop (pos + 1) := by
          rw [List.drop_append_eq_append_drop]
          rw [List.length_take, show min pos v.length = pos by omega]
          rw [List.drop_of_length_le (by simp only [List.length_take]; omega)]
          rw [show pos + 1 - pos = 1 by omega]
          rfl
        rw [htk, hdp, hdrop]
        rw [List.map_cons, if_pos he, List.append_assoc]
        rfl
      · rw [if_neg (fun hcon => he (by
          have h2 := hcon.2
          rw [hdrop, List.take_succ_cons, List.take_zero] at h2
          injection h2 with h3 h4))]
        rw [ih _ _ (by omega)]
        rw [hdrop, List.map_cons, if_neg he]
        have hts : v.take (pos + 1) = v.take pos ++ [v[pos]] := by
          rw [List.take_succ, List.getElem?_eq_getElem hp]
          rfl
        rw [hts, List.append_assoc, List.singleton_append]
    · rw [if_neg hp]
      rw [List.drop_of_length_le (by omega), List.map_nil, List.append_nil]
      rw [List.take_of_length_le (by omega)]

theorem mpLoop_single (y0 m : Nat) (v : List Nat) :
    mpLoop [y0] m v = v.map (fun b => if b = y0 then m else b) := by
  unfold mpLoop
  rw [mpLoopGo_single y0 m v.length v 0 (by omega)]
  simp

theorem mpTransform_single (ys : List Nat) (mk : Nat) (v : List Nat)
    (hy : ∀ y ∈ ys, y < 0x80) (hmk : 0x80 ≤ mk)
    (hbound : mk + ys.length ≤ 256) :
    mpTransform v (ys.map (fun y => [y])) mk =
      v.map (fun b => if b ∈ ys then mk + ys.indexOf b else b) := by
  induction ys generalizing v mk with
  | nil =>
    unfold mpTransform
    simp
  | cons y rest ih =>
    rw [List.map_cons]
    unfold mpTransform
    rw [if_pos (by simp)]
    rw [mpLoop_single]
    cases rest with
    | nil =>
      unfold mpTransform
      apply List.map_congr_left
      intro b _
      by_cases hb : b = y
      · subst hb
        simp
      · simp [hb]
    | cons z rs =>
      have hmod : (mk + 1) % 256 = mk + 1 := by
        apply Nat.mod_eq_of_lt
        simp only [List.length_cons] at hbound
        omega
      rw [hmod]
      have hy2 : ∀ w ∈ z :: rs, w < 0x80 :=
        fun w hw => hy w (List.mem_cons_of_mem _ hw)
      have hb2 : mk + 1 + (z :: rs).length ≤ 256 := by
        simp only [List.length_cons] at hbound ⊢
        omega
      rw [ih _ _ hy2 (by omega) hb2]
      rw [List.map_map]
      apply List.map_congr_left
      intro b _
      simp only [Function.comp_apply]
      by_cases hb : b = y
      · subst hb
        rw [if_pos rfl]
        have hmknotin : mk ∉ z :: rs :=
          fun hcon => absurd (hy2 mk hcon) (by omega)
        rw [if_neg hmknotin]
        rw [if_pos (List.mem_cons_self ..)]
        rw [List.indexOf_cons_self]
        omega
      · rw [if_neg hb]
        by_cases hbr : b ∈ z :: rs
        · rw [if_pos hbr, if_pos (List.mem_cons_of_mem _ hbr)]
          rw [List.indexOf_cons_ne _ (fun he => hb he.symm)]
          omega
        · rw [if_neg hbr, if_neg (by
            intro hcon
            rcases List.mem_cons.mp hcon with h1 | h2
            · exact hb h1
            · exact hbr h2)]

/-- C2 amended: with single-byte marker names `Y1 ... Yn` (each below
0x80, at most 128 of them so that the `u8` marker counter cannot wrap) and
a body containing no bytes ≥ 0x80, executing `#(ds,F,body)`,
`#(mp,F,Y1,...,Yn)` and then `##(F,a1,...,an)` produces `body` with every
occurrence of `Y1` replaced by the form name `F` and every occurrence of
`Yi` (i ≥ 2) replaced by `a(i-1)`: marker `0x80 + (i - 1)` denotes
argument index `i - 1` of the call, and index 0 is the call head. -/
theorem C2_amended_mp_roundtrip (fname body ys : List Nat)
    (avs : List (List Nat))
    (hbody : ∀ b ∈ body, b < 0x80)
    (hys : ∀ y ∈ ys, y < 0x80)
    (hlen : ys.length = avs.length)
    (hn : ys.length ≤ 128) :
    roundTrip fname body (ys.map (fun y => [y])) avs =
      body.flatMap (fun b =>
        if b ∈ ys then (fname :: avs).getD (ys.indexOf b) [] else [b]) := by
  unfold roundTrip MintForm.from_string MintForm.get_pos mpExecute
  dsimp only
  rw [Nat.min_comm, Nat.min_zero, List.drop_zero]
  rw [mpTransform_single ys 0x80 body hys (by omega) (by omega)]
  unfold segStringNeutral
  rw [List.flatMap_map]
  apply List.flatMap_congr
  intro b hb
  have hblt : b < 0x80 := hbody b hb
  by_cases hmem : b ∈ ys
  · rw [if_pos hmem]
    have hidx : ys.indexOf b < ys.length := List.indexOf_lt_length.mpr hmem
    rw [if_pos (by omega)]
    have hargl : (fname :: avs ++ [[]]).length = avs.length + 2 := by
      simp
    rw [hargl]
    rw [show 0x80 + ys.indexOf b - 0x80 = ys.indexOf b by omega]
    rw [show (avs.length + 2 - 1) % 256 = avs.length + 1 by omega]
    rw [show min (ys.indexOf b) (avs.length + 1) = ys.indexOf b by omega]
    rw [show fname :: avs ++ [[]] = (fname :: avs) ++ [[]] from rfl]
    rw [List.getD_eq_getElem?_getD, List.getD_eq_getElem?_getD]
    rw [List.getElem?_append]
    rw [if_pos (show List.indexOf b ys < (fname :: avs).length by
      simp only [List.length_cons]; omega)]
    rw [if_pos hmem]
  · rw [if_neg hmem, if_neg (by omega), if_neg hmem]

/-- Witness for the amended C2 at the counterexample instance: names "X",
"Y" with arguments "A", "B" on body "XY" and form name "f" give "fA". -/
theorem C2_amended_mp_roundtrip_witness :
    roundTrip [102] [88, 89] ([88, 89].map (fun y => [y])) [[65], [66]] =
      [88, 89].flatMap (fun b =>
        if b ∈ [88, 89] then
          ([102] :: [[65], [66]]).getD (([88, 89] : List Nat).indexOf b) []
        else [b]) :=
  C2_amended_mp_roundtrip [102] [88, 89] [88, 89] [[65], [66]]
    (by decide) (by decide) (by decide) (by decide)

/-! ### C9: integer parsing with non-numeric lead (mint_string.rs, mthprim.rs)

`get_int_value` and `get_int_prefix` (modelled here as `get_int_lead`, the
source name ends in a reserved word) scan the string from the right for a
numeric suffix.  `BinaryOpPrim::execute` parses both operands, applies the
binary operation and returns the first operand's lead text followed by the
result rendered in base 10 via `return_integer_with_prefix`. -/

/-- `u8::to_ascii_uppercase`. -/
def to_ascii_uppercase (c : Nat) : Nat :=
  if 97 ≤ c ∧ c ≤ 122 then c - 32 else c

/-- Two's-complement wrap of an `i32` intermediate value. -/
def wrap32 (x : Int) : Int := (x + 2 ^ 31) % 2 ^ 32 - 2 ^ 31

/-- The digit test of the scan loops: `(ch >= b'0' && ch < end_number) ||
(ch >= b'A' && ch < end_letter)` for the already-uppercased `ch`. -/
def is_num_char (en el c : Nat) : Bool :=
  decide ((48 ≤ c ∧ c < en) ∨ (65 ≤ c ∧ c < el))

/-- First loop of `get_int_value`: starting from `i = s.len()`, step left
while the character is numeric; on the first non-numeric character stop one
past it, and record `mult_val = -1` if that character is a minus sign.
Returns `(i, mult_val)` as left by the loop. -/
def intScanStart (en el : Nat) (s : List Nat) : Nat → Nat × Int
  | 0 => (0, 1)
  | i + 1 =>
    if is_num_char en el (to_ascii_uppercase (s.getD i 0)) then
      intScanStart en el s i
    else
      (i + 1, if to_ascii_uppercase (s.getD i 0) = 45 then -1 else 1)

/-- Second loop of `get_int_value`: accumulate `number = number * base +
digit` (an `i32` product, hence `wrap32`) over the suffix, ignoring any
non-digit characters. -/
def accumDigits (base : Int) (en el : Nat) : List Nat → Int → Int
  | [], acc => acc
  | ch :: rest, acc =>
    accumDigits base en el rest
      (if 48 ≤ to_ascii_uppercase ch ∧ to_ascii_uppercase ch < en then
        wrap32 (acc * base + ((to_ascii_uppercase ch - 48 : Nat) : Int))
      else if 10 < base ∧ 65 ≤ to_ascii_uppercase ch ∧ to_ascii_uppercase ch < el then
        wrap32 (acc * base + (10 + ((to_ascii_uppercase ch - 65 : Nat) : Int)))
      else acc)

/-- `mint_string::get_int_value`. -/
def get_int_value (s : List Nat) (base : Int) : Int :=
  let baseC := max 2 (min base 36)
  let en := 48 + min 10 baseC.toNat
  let el := 65 + (baseC - 10).toNat
  let sm := intScanStart en el s s.length
  wrap32 (accumDigits baseC en el (s.drop sm.1) 0 * sm.2)

/-- Scan loop of `get_int_prefix`: like `intScanStart` but a terminating
minus sign is excluded from the lead (no `plast += 1` in that case). -/
def leadScan (en el : Nat) (s : List Nat) : Nat → Nat
  | 0 => 0
  | i + 1 =>
    if is_num_char en el (to_ascii_uppercase (s.getD i 0)) then
      leadScan en el s i
    else if to_ascii_uppercase (s.getD i 0) = 45 then i
    else i + 1

/-- `mint_string::get_int_prefix` (renamed): the part of `s` before its
numeric suffix. -/
def get_int_lead (s : List Nat) (base : Int) : List Nat :=
  let baseC := max 2 (min base 36)
  let en := 48 + min 10 baseC.toNat
  let el := 65 + (baseC - 10).toNat
  s.take (leadScan en el s s.length)

/-- `mint_string::digit_char`. -/
def digit_char (n : Nat) : Nat :=
  if n < 10 then 48 + n else 65 + (n - 10)

/-- `mint_string::make_digits`, with explicit fuel: the recursion is on
`n / base`, which strictly decreases for `base ≥ 2`, so fuel `n + 1`
reproduces the source recursion exactly on every call `append_num` makes. -/
def make_digits_go (base : Nat) : Nat → Nat → List Nat → List Nat
  | 0, _, s => s
  | fuel + 1, n, s =>
    (if base ≤ n then make_digits_go base fuel (n / base) s else s)
      ++ [digit_char (n % base)]

def make_digits (s : List Nat) (n : Nat) (base : Nat) : List Nat :=
  make_digits_go base (n + 1) n s

/-- `mint_string::append_num`. -/
def append_num (s : List Nat) (n : Int) (base : Int) : List Nat :=
  let baseC := (max 2 (min base 36)).toNat
  if n < 0 then make_digits (s ++ [45]) (-n).toNat baseC
  else make_digits s n.toNat baseC

/-- `BinaryOpPrim::execute` from mthprim.rs: with fewer than three
arguments it returns without producing output (`none`); otherwise it parses
`args[1]` in base 10, keeps its lead, parses `args[2]`, applies `op` and
returns lead ++ digits via `return_integer_with_prefix`.  Out-of-range
indexing of a `MintArgList` yields the empty `ARG_END` value, hence
`getD _ []`. -/
def binaryOpExecute (op : Int → Int → Int) (args : List (List Nat)) :
    Option (List Nat) :=
  if args.length < 3 then none
  else
    some (append_num (get_int_lead (args.getD 1 []) 10)
      (op (get_int_value (args.getD 1 []) 10) (get_int_value (args.getD 2 []) 10)) 10)

theorem upper_digit (c : Nat) (h : 48 ≤ c ∧ c < 58) :
    to_ascii_uppercase c = c := by
  unfold to_ascii_uppercase
  rw [if_neg (by omega)]

theorem is_num_char_digit (c : Nat) (h : 48 ≤ c ∧ c < 58) :
    is_num_char 58 65 c = true := by
  unfold is_num_char
  exact decide_eq_true (Or.inl ⟨h.1, by omega⟩)

theorem intScanStart_digits (en el : Nat) (s : List Nat) (m n : Nat)
    (h : ∀ k, k < n → is_num_char en el (to_ascii_uppercase (s.getD (m + k) 0)) = true) :
    intScanStart en el s (m + n) = intScanStart en el s m := by
  induction n with
  | zero => rfl
  | succ n ih =>
    rw [show m + (n + 1) = m + n + 1 by omega]
    simp only [intScanStart]
    rw [if_pos (h n (by omega))]
    exact ih (fun k hk => h k (by omega))

theorem leadScan_digits (en el : Nat) (s : List Nat) (m n : Nat)
    (h : ∀ k, k < n → is_num_char en el (to_ascii_uppercase (s.getD (m + k) 0)) = true) :
    leadScan en el s (m + n) = leadScan en el s m := by
  induction n with
  | zero => rfl
  | succ n ih =>
    rw [show m + (n + 1) = m + n + 1 by omega]
    simp only [leadScan]
    rw [if_pos (h n (by omega))]
    exact ih (fun k hk => h k (by omega))

theorem getD_append_digit (p d : List Nat) (k : Nat) (hk : k < d.length) :
    (p ++ d).getD (p.length + k) 0 = d.getD k 0 := by
  rw [List.getD_eq_getElem?_getD, List.getD_eq_getElem?_getD]
  rw [List.getElem?_append_right (by omega)]
  rw [show p.length + k - p.length = k by omega]

theorem digits_skip_hyp (p d : List Nat) (hdig : ∀ c ∈ d, 48 ≤ c ∧ c < 58) :
    ∀ k, k < d.length →
      is_num_char 58 65 (to_ascii_uppercase ((p ++ d).getD (p.length + k) 0)) = true := by
  intro k hk
  rw [getD_append_digit p d k hk]
  rw [List.getD_eq_getElem d 0 hk]
  have hmem := hdig _ (d.getElem_mem hk)
  rw [upper_digit _ hmem]
  exact is_num_char_digit _ hmem

theorem getD_append_last (q : List Nat) (c : Nat) (d : List Nat) :
    ((q ++ [c]) ++ d).getD q.length 0 = c := by
  rw [List.getD_eq_getElem?_getD, List.append_assoc]
  rw [List.getElem?_append_right (le_refl q.length)]
  rw [Nat.sub_self, List.singleton_append]
  simp

theorem intScanStart_append (p d : List Nat)
    (hdig : ∀ c ∈ d, 48 ≤ c ∧ c < 58)
    (hp : p = [] ∨ ∃ q c, p = q ++ [c] ∧
      is_num_char 58 65 (to_ascii_uppercase c) = false ∧
      to_ascii_uppercase c ≠ 45) :
    intScanStart 58 65 (p ++ d) (p ++ d).length = (p.length, 1) := by
  rw [List.length_append]
  rw [intScanStart_digits 58 65 (p ++ d) p.length d.length (digits_skip_hyp p d hdig)]
  rcases hp with hnil | ⟨q, c, hpe, hnum, hneq⟩
  · subst hnil
    rfl
  · subst hpe
    rw [show (q ++ [c]).length = q.length + 1 by simp]
    simp only [intScanStart]
    rw [getD_append_last q c d]
    rw [if_neg (by rw [hnum]; exact Bool.false_ne_true)]
    rw [if_neg hneq]

theorem leadScan_append (p d : List Nat)
    (hdig : ∀ c ∈ d, 48 ≤ c ∧ c < 58)
    (hp : p = [] ∨ ∃ q c, p = q ++ [c] ∧
      is_num_char 58 65 (to_ascii_uppercase c) = false ∧
      to_ascii_uppercase c ≠ 45) :
    leadScan 58 65 (p ++ d) (p ++ d).length = p.length := by
  rw [List.length_append]
  rw [leadScan_digits 58 65 (p ++ d) p.length d.length (digits_skip_hyp p d hdig)]
  rcases hp with hnil | ⟨q, c, hpe, hnum, hneq⟩
  · subst hnil
    rfl
  · subst hpe
    rw [show (q ++ [c]).length = q.length + 1 by simp]
    simp only [leadScan]
    rw [getD_append_last q c d]
    rw [if_neg (by rw [hnum]; exact Bool.false_ne_true)]
    rw [if_neg hneq]

theorem make_digits_go_append (base : Nat) (fuel n : Nat) (s : List Nat) :
    make_digits_go base fuel n s = s ++ make_digits_go base fuel n [] := by
  induction fuel generalizing n s with
  | zero => simp [make_digits_go]
  | succ f ih =>
    simp only [make_digits_go]
    by_cases h : base ≤ n
    · rw [if_pos h, if_pos h, ih (n / base) s, ih (n / base) []]
      simp
    · rw [if_neg h, if_neg h]
      simp

theorem append_num_append (p : List Nat) (n : Int) (b : Int) :
    append_num p n b = p ++ append_num [] n b := by
  unfold append_num make_digits
  by_cases h : n < 0
  · rw [if_pos h, if_pos h]
    rw [make_digits_go_append _ _ _ (p ++ [45]), make_digits_go_append _ _ _ ([] ++ [45])]
    simp
  · rw [if_neg h, if_neg h]
    rw [make_digits_go_append _ _ _ p]

theorem get_int_lead_ten (s : List Nat) :
    get_int_lead s 10 = s.take (leadScan 58 65 s s.length) := rfl

theorem get_int_value_ten (s : List Nat) :
    get_int_value s 10 =
      wrap32 (accumDigits 10 58 65 (s.drop (intScanStart 58 65 s s.length).1) 0 *
        (intScanStart 58 65 s s.length).2) := rfl

/-- C9: when the first operand is a non-numeric lead `p` (empty, or ending
in a character that is neither a base-10 digit nor a minus sign after
uppercasing) followed by a decimal suffix `d`, a binary arithmetic
primitive parses only `d`, applies the operation to that value and the
second operand's value, and returns `p` followed by the result rendered in
base 10 — e.g. `##(++,(Prefix 12),3)` yields `"Prefix 15"`. -/
theorem C9_arith_lead_preserved (op : Int → Int → Int) (head p d a2 : List Nat)
    (hdig : ∀ c ∈ d, 48 ≤ c ∧ c < 58)
    (hp : p = [] ∨ ∃ q c, p = q ++ [c] ∧
      is_num_char 58 65 (to_ascii_uppercase c) = false ∧
      to_ascii_uppercase c ≠ 45) :
    get_int_lead (p ++ d) 10 = p ∧
    get_int_value (p ++ d) 10 = get_int_value d 10 ∧
    binaryOpExecute op [head, p ++ d, a2] =
      some (p ++ append_num [] (op (get_int_value d 10) (get_int_value a2 10)) 10) := by
  have hA : get_int_lead (p ++ d) 10 = p := by
    rw [get_int_lead_ten, leadScan_append p d hdig hp, List.take_left]
  have hB : get_int_value (p ++ d) 10 = get_int_value d 10 := by
    rw [get_int_value_ten, get_int_value_ten]
    rw [intScanStart_append p d hdig hp]
    have hd0 : intScanStart 58 65 d d.length = (0, 1) := by
      have hskip := intScanStart_digits 58 65 d 0 d.length (fun k hk => by
        rw [show (0:Nat) + k = k by omega]
        rw [List.getD_eq_getElem d 0 hk]
        have hmem := hdig _ (d.getElem_mem hk)
        rw [upper_digit _ hmem]
        exact is_num_char_digit _ hmem)
      rw [show d.length = 0 + d.length by omega]
      rw [hskip]
      rfl
    rw [hd0]
    dsimp only
    rw [List.drop_left, List.drop_zero]
  refine ⟨hA, hB, ?_⟩
  unfold binaryOpExecute
  rw [if_neg (show ¬([head, p ++ d, a2].length < 3) by simp)]
  have hg1 : [head, p ++ d, a2].getD 1 [] = p ++ d := by simp [List.getD]
  have hg2 : [head, p ++ d, a2].getD 2 [] = a2 := by simp [List.getD]
  rw [hg1, hg2, hA, hB, append_num_append]

/-- Witness for C9 at the spec's example: `##(++,(Prefix 12),3)`.  The
first operand is `"Prefix 12"`, whose lead `"Prefix "` ends in a space;
the primitive returns `"Prefix "` followed by `12 + 3` in base 10. -/
theorem C9_arith_lead_preserved_witness :
    get_int_lead ([80, 114, 101, 102, 105, 120, 32] ++ [49, 50]) 10 =
      [80, 114, 101, 102, 105, 120, 32] ∧
    get_int_value ([80, 114, 101, 102, 105, 120, 32] ++ [49, 50]) 10 =
      get_int_value [49, 50] 10 ∧
    binaryOpExecute (fun a b => a + b)
        [[43, 43], [80, 114, 101, 102, 105, 120, 32] ++ [49, 50], [51]] =
      some ([80, 114, 101, 102, 105, 120, 32] ++
        append_num []
          ((fun a b => a + b) (get_int_value [49, 50] 10) (get_int_value [51] 10)) 10) :=
  C9_arith_lead_preserved (fun a b => a + b) [43, 43]
    [80, 114, 101, 102, 105, 120, 32] [49, 50] [51]
    (by decide)
    (Or.inr ⟨[80, 114, 101, 102, 105, 120], 32, rfl, by decide, by decide⟩)

end Freemacs
